import Mathlib

/-!
# Verification of the `typed_tuple` generator

A shallow embedding of the `generate_typed_tuple_impls` proc macro
(`src/typed_tuple_macros/src/lib.rs`) and of the hand-enumerated
`impl_typed_tuple!` fallback (`src/src/lib.rs`).

The generator, given a maximum arity `max_size`, emits
* one field-less marker struct `TupleIndexi` per global index `i` in
  `0..max_size` (emitted once, before and independent of the arity loop), and
* for every arity `size` in `1..=max_size` and every position produced by
  zipping the `size` type parameters with the enumerated marker list, one
  `impl TypedTuple<TupleIndexIndex, TIndex> for (T0, ..., T(size-1))`
  providing `get`, `get_mut`, `map`, `pop` and `split_at`.

We model heterogeneous tuple values of arity `s` as lists `v : List α` with
`v.length = s` (element types are opaque to every generated operation body,
which only projects, rebuilds and reassigns fields, so a homogeneous carrier
is faithful).  A generated body like `(#(self.#remaining_indices,)*)` becomes
the map of the projection function over the very index list the generator
computes, so the Lean definitions mirror the emitter's iterator chains
line by line.
-/

namespace TypedTupleGen

/-- The marker identities `TupleIndex0 .. TupleIndex(max_size-1)`, modelled by
their global index: the emitter runs `for index in 0..max_size` once, outside
the arity loop, pushing one marker per index. -/
def index_idents (max_size : Nat) : List Nat :=
  List.range max_size

/-- The declaration emitted for one marker: its index paired with its field
list.  The source emits `pub struct #marker_ident;`, a unit struct, so the
field list is empty. -/
def marker_decls (max_size : Nat) : List (Nat × List String) :=
  (List.range max_size).map (fun i => (i, []))

/-- The type-parameter list `T0 .. T(size-1)` of the impl for arity `size`
(`(0..size).map(|i| format_ident!("T{}", i))`), with `Ti` modelled by `i`. -/
def type_params (size : Nat) : List Nat :=
  List.range size

/-- The `(size, index)` pairs for which the emitter pushes an impl: the outer
loop runs `size` over `1..=max_size`; the inner loop zips the `size` type
parameters with `index_idents.iter().enumerate()`, so the index component is
the enumeration index of the (truncated) zip. -/
def emitted_impls (max_size : Nat) : List (Nat × Nat) :=
  (List.range' 1 max_size).flatMap (fun size =>
    ((type_params size).zip (index_idents max_size).enum).map
      (fun p => (size, p.2.1)))

/-- `pop_output_types`: the element types of `Self::PopOutput`, i.e.
`type_params.iter().enumerate().filter(|(i, _)| *i != index).map(|(_, t)| t)`. -/
def pop_output_types (size index : Nat) : List Nat :=
  ((type_params size).enum.filter (fun p => p.1 ≠ index)).map Prod.snd

/-- `remaining_indices`: the field indices projected by `pop`, i.e.
`(0..size).filter(|i| *i != index)`. -/
def remaining_indices (size index : Nat) : List Nat :=
  (List.range size).filter (fun i => i ≠ index)

/-- `split_left_types`: `type_params.iter().take(index + 1)`. -/
def split_left_types (size index : Nat) : List Nat :=
  (type_params size).take (index + 1)

/-- `split_right_types`: `type_params.iter().skip(index + 1)`. -/
def split_right_types (size index : Nat) : List Nat :=
  (type_params size).drop (index + 1)

/-- `split_left_indices`: the field indices projected into the left split,
`(0..=index)`. -/
def split_left_indices (index : Nat) : List Nat :=
  List.range (index + 1)

/-- `split_right_indices`: the field indices projected into the right split,
`((index + 1)..size)`. -/
def split_right_indices (size index : Nat) : List Nat :=
  List.range' (index + 1) (size - (index + 1))

/-- The operation names exposed by each generated impl, in source order. -/
def generated_ops : List String :=
  ["get", "get_mut", "map", "pop", "split_at"]

variable {α : Type} [Inhabited α]

/-- `fn get(&self) -> &#target_type { &self.#index_lit }`: projection of the
field at `index`.  (All generated bodies project fields whose index is below
the arity, so on a value of the right arity the `default` fallback of `getD`
is never reached.) -/
def get (v : List α) (index : Nat) : α :=
  v.getD index default

/-- `fn get_mut(&mut self) -> &mut #target_type { &mut self.#index_lit }`:
the caller assigns `x` through the returned reference, so the observable
effect modelled here is the state after `*tuple.get_mut() = x`. -/
def get_mut_write (v : List α) (index : Nat) (x : α) : List α :=
  v.set index x

/-- `fn map<FN>(&mut self, f) { self.#index_lit = f(core::mem::take(&mut self.#index_lit)); }`:
`mem::take` moves the field out, leaving `Default::default()` in place, then
the assignment overwrites the field with `f` of the taken value. -/
def map (v : List α) (index : Nat) (f : α → α) : List α :=
  let taken := get v index
  let after_take := v.set index default
  after_take.set index (f taken)

/-- `fn pop(self) -> (#target_type, Self::PopOutput)`: the field at `index`
paired with the tuple `(#(self.#remaining_indices,)*)` of the other fields. -/
def pop (v : List α) (index : Nat) : α × List α :=
  (get v index, (remaining_indices v.length index).map (get v))

/-- `fn split_at(self) -> (Self::SplitLeft, Self::SplitRight)`: the tuples
`(#(self.#split_left_indices,)*)` and `(#(self.#split_right_indices,)*)`. -/
def split_at (v : List α) (index : Nat) : List α × List α :=
  ((split_left_indices index).map (get v),
   (split_right_indices v.length index).map (get v))

end TypedTupleGen

namespace TypedTupleGen

/-! ## The hand-enumerated fallback variant (`src/src/lib.rs`)

The `impl_typed_tuple!` macro_rules recursion walks an index list
`[0, 1, ..., 11]` and the generics list in lockstep, emitting one impl of
`get`/`get_mut`/`map` per step, and stops when the generics list is
exhausted.  It is invoked for the generic tuples of arity 2 through 12. -/

/-- The literal index list the fallback macro starts from. -/
def fallback_idx_list : List Nat :=
  [0, 1, 2, 3, 4, 5, 6, 7, 8, 9, 10, 11]

/-- The macro_rules recursion: the first arm (empty generics tail) emits
nothing; the recursive arm consumes one index and one generic and emits the
impl for that index.  (No arm matches an empty index list against a nonempty
generics list; with the invoked arities, arity ≤ 12, that case is never
reached, and we model it as emitting nothing.) -/
def impl_typed_tuple_rec : List Nat → List Nat → List Nat
  | _, [] => []
  | [], _ :: _ => []
  | i :: is, _ :: gs => i :: impl_typed_tuple_rec is gs

/-- The arities at which `impl_typed_tuple!` is invoked: `(A, B)` up to
`(A, B, C, D, E, F, G, H, I, K, J, L)`. -/
def fallback_arities : List Nat :=
  [2, 3, 4, 5, 6, 7, 8, 9, 10, 11, 12]

/-- The `(arity, index)` pairs the fallback variant implements. -/
def fallback_impls : List (Nat × Nat) :=
  fallback_arities.flatMap (fun s =>
    (impl_typed_tuple_rec fallback_idx_list (type_params s)).map (fun i => (s, i)))

/-- The operation names each fallback impl provides, in source order. -/
def fallback_ops : List String :=
  ["get", "get_mut", "map"]

variable {α : Type} [Inhabited α]

/-- Fallback `fn get(&self) -> &$gen_head { &self.$idx_head }`. -/
def fallback_get (v : List α) (index : Nat) : α :=
  v.getD index default

/-- Fallback `get_mut`, observed as the state after assigning through the
returned `&mut self.$idx_head`. -/
def fallback_get_mut_write (v : List α) (index : Nat) (x : α) : List α :=
  v.set index x

/-- Fallback `fn map { self.$idx_head = f(std::mem::take(&mut self.$idx_head)); }`. -/
def fallback_map (v : List α) (index : Nat) (f : α → α) : List α :=
  let taken := fallback_get v index
  let after_take := v.set index default
  after_take.set index (f taken)

/-! ## The concrete three-element example

Element values of the heterogeneous triple `(text, character, number)` from
the spec's concrete example, with the element type of each value exposed so
that lookup-by-type can be modelled: an impl for the triple matches a lookup
type `t` at exactly the positions whose element type is `t`. -/

/-- A heterogeneous element: a text, a character or a number. -/
inductive Elem where
  | text : String → Elem
  | ch : Char → Elem
  | num : Nat → Elem
deriving DecidableEq

instance : Inhabited Elem := ⟨Elem.num 0⟩

/-- The element type of a value, as the type key trait resolution matches on. -/
def elemType : Elem → String
  | .text _ => "String"
  | .ch _ => "char"
  | .num _ => "usize"

/-- The positions of a tuple whose element type equals the lookup type `t`:
lookup by type alone resolves exactly when this list is a singleton. -/
def matching_positions (types : List String) (t : String) : List Nat :=
  (types.enum.filter (fun p => p.2 = t)).map Prod.fst

/-- The concrete example tuple: ("hello", 'b', 7) of arity 3. -/
def concrete_triple : List Elem :=
  [Elem.text "hello", Elem.ch 'b', Elem.num 7]

end TypedTupleGen

namespace TypedTupleGen

/-! ## Helper lemmas -/

variable {α : Type} [Inhabited α]

/-- On an in-range index, `get` is plain field projection. -/
theorem get_eq_getElem (v : List α) {n : Nat} (h : n < v.length) : get v n = v[n] :=
  List.getD_eq_getElem v default h

/-- Projecting the fields `0..n` of `v` yields its prefix of length `n`. -/
theorem map_get_range (v : List α) : ∀ n, n ≤ v.length →
    (List.range n).map (get v) = v.take n := by
  intro n
  induction n with
  | zero => intro h; simp
  | succ n ih =>
    intro h
    have hn : n < v.length := h
    rw [List.range_succ, List.map_append, ih (Nat.le_of_succ_le h), List.take_succ]
    simp [get_eq_getElem v hn, List.getElem?_eq_getElem hn]

/-- Projecting the fields `a..a+b` of `v` yields the corresponding
infix of `v`. -/
theorem map_get_range' (v : List α) : ∀ b a, a + b ≤ v.length →
    (List.range' a b).map (get v) = (v.drop a).take b := by
  intro b
  induction b with
  | zero => intro a h; simp
  | succ b ih =>
    intro a h
    have ha : a < v.length := by omega
    rw [List.range'_succ, List.map_cons, ih (a + 1) (by omega)]
    rw [List.drop_eq_getElem_cons ha, List.take_succ_cons, get_eq_getElem v ha]

/-- The index list `(0..size).filter(|i| *i != index)` splits into the indices
below `index` and those above it. -/
theorem remaining_indices_eq {s i : Nat} (h : i < s) :
    remaining_indices s i = List.range i ++ List.range' (i + 1) (s - (i + 1)) := by
  unfold remaining_indices
  have hsplit : List.range s = List.range' 0 i ++ List.range' i (s - i) := by
    have h2 := List.range'_append 0 i (s - i) 1
    simp only [Nat.one_mul, Nat.zero_add] at h2
    have h3 : s - i + i = s := by omega
    rw [h3] at h2
    rw [List.range_eq_range', ← h2]
  rw [hsplit]
  have hsi : s - i = (s - (i + 1)) + 1 := by omega
  rw [hsi, List.range'_succ, List.filter_append, List.filter_cons]
  simp only [decide_eq_true_eq]
  rw [if_neg (by simp)]
  congr 1
  · rw [← List.range_eq_range', List.filter_eq_self]
    intro a ha
    simp only [List.mem_range] at ha
    simp only [decide_eq_true_eq]
    omega
  · rw [List.filter_eq_self]
    intro a ha
    rw [List.mem_range'_1] at ha
    simp only [decide_eq_true_eq]
    omega

/-- The remainder built by `pop` is the original value with field `i`
removed: the prefix before `i` followed by the suffix after it. -/
theorem pop_snd_eq (v : List α) {i : Nat} (h : i < v.length) :
    (pop v i).2 = v.take i ++ v.drop (i + 1) := by
  show (remaining_indices v.length i).map (get v) = _
  rw [remaining_indices_eq h, List.map_append, map_get_range v i (Nat.le_of_lt h),
    map_get_range' v (v.length - (i + 1)) (i + 1) (by omega)]
  congr 1
  rw [List.take_of_length_le]
  simp

omit [Inhabited α] in
/-- Inserting at the boundary of a concatenation places the new element
between the two halves. -/
theorem insertIdx_append_length (l1 l2 : List α) (x : α) :
    List.insertIdx l1.length x (l1 ++ l2) = l1 ++ x :: l2 := by
  induction l1 with
  | nil => simp
  | cons h t ih =>
    simp only [List.length_cons, List.cons_append, List.insertIdx_succ_cons, ih]

omit [Inhabited α] in
/-- Writing back the element a list position already holds is a no-op. -/
theorem set_getElem_self_eq (v : List α) {i : Nat} (h : i < v.length) :
    v.set i v[i] = v := by
  apply List.ext_getElem (by simp)
  intro n h1 h2
  by_cases hn : n = i
  · subst hn; simp
  · rw [List.getElem_set_ne (fun hh => hn hh.symm)]

/-- For arities not exceeding the configured maximum, the truncating zip of
the type parameters against the enumerated marker list emits exactly the
indices `0..size`. -/
theorem emitted_inner_eq {size N : Nat} (h : size ≤ N) :
    ((type_params size).zip (index_idents N).enum).map (fun p => (size, p.2.1)) =
      (List.range size).map (fun i => (size, i)) := by
  apply List.ext_getElem
  · simp [type_params, index_idents, List.enum_length]
    omega
  · intro n h1 h2
    have hn : n < size := by simpa using h2
    have hzl : n < ((type_params size).zip (index_idents N).enum).length := by
      simpa using h1
    rw [List.getElem_map, List.getElem_map, List.getElem_zip, List.getElem_range,
      List.getElem_enum]

/-- The emitted impl list, in closed form: for each arity `1..=N`, one impl
per index `0..size`. -/
theorem emitted_impls_eq (N : Nat) :
    emitted_impls N = (List.range' 1 N).flatMap (fun size =>
      (List.range size).map (fun i => (size, i))) := by
  unfold emitted_impls
  rw [List.flatMap_def, List.flatMap_def]
  congr 1
  apply List.map_congr_left
  intro size hsize
  rw [List.mem_range'_1] at hsize
  exact emitted_inner_eq (by omega)

end TypedTupleGen

namespace TypedTupleGen

variable {α : Type} [Inhabited α]

/-- Membership in the emitted impl list: exactly the pairs with arity between
1 and the maximum and index below the arity. -/
theorem mem_emitted_impls {N s i : Nat} :
    (s, i) ∈ emitted_impls N ↔ 1 ≤ s ∧ s ≤ N ∧ i < s := by
  rw [emitted_impls_eq]
  simp only [List.mem_flatMap, List.mem_map, List.mem_range, List.mem_range'_1,
    Prod.mk.injEq]
  constructor
  · rintro ⟨a, ha, b, hb, rfl, rfl⟩
    omega
  · rintro ⟨h1, h2, h3⟩
    exact ⟨s, by omega, i, h3, rfl, rfl⟩

/-- Twice the sum of the arities `1..=N`. -/
theorem sum_range'_one_mul_two : ∀ N : Nat, (List.range' 1 N).sum * 2 = N * (N + 1) := by
  intro N
  induction N with
  | zero => rfl
  | succ N ih =>
    rw [List.range'_1_concat, List.sum_append]
    have hx : (N + 1) * (N + 1 + 1) = N * (N + 1) + 2 * (N + 1) := by ring
    simp only [List.sum_cons, List.sum_nil]
    omega

end TypedTupleGen

namespace TypedTupleGen

variable {α : Type} [Inhabited α]

/-- C1: for every configured maximum arity, the generator emits exactly one
impl for every pair `(s, i)` with `1 ≤ s ≤ N` and `i < s` — no gaps, no
duplicates, nothing at `i ≥ s` — and the total count is `N * (N + 1) / 2`. -/
theorem C1_emitted_impls_complete (N : Nat) :
    (emitted_impls N).Nodup ∧
    (∀ s i, (s, i) ∈ emitted_impls N ↔ 1 ≤ s ∧ s ≤ N ∧ i < s) ∧
    (emitted_impls N).length = N * (N + 1) / 2 := by
  refine ⟨?_, fun s i => mem_emitted_impls, ?_⟩
  · rw [emitted_impls_eq, List.nodup_flatMap]
    constructor
    · intro s hs
      exact List.Nodup.map (fun a b hab => by simpa using hab) (List.nodup_range s)
    · apply List.Pairwise.imp ?_ (List.pairwise_lt_range' 1 N)
      intro a b hab
      intro p hpa hpb
      simp only [List.mem_map, List.mem_range] at hpa hpb
      obtain ⟨x, hx, rfl⟩ := hpa
      obtain ⟨y, hy, heq⟩ := hpb
      have : b = a := (Prod.mk.injEq _ _ _ _).mp heq |>.1
      omega
  · rw [emitted_impls_eq, List.length_flatMap]
    have hmap : List.map (List.length ∘ fun size => (List.range size).map fun i => (size, i))
        (List.range' 1 N) = List.range' 1 N := by
      apply List.map_congr_left ?_ |>.trans (List.map_id _)
      intro a ha
      simp
    rw [hmap]
    have := sum_range'_one_mul_two N
    omega

/-- C1 witness at `N = 3`. -/
theorem C1_emitted_impls_complete_witness :
    (emitted_impls 3).Nodup ∧
    (∀ s i, (s, i) ∈ emitted_impls 3 ↔ 1 ≤ s ∧ s ≤ 3 ∧ i < s) ∧
    (emitted_impls 3).length = 3 * (3 + 1) / 2 :=
  C1_emitted_impls_complete 3

end TypedTupleGen

namespace TypedTupleGen

variable {α : Type} [Inhabited α]

/-- C2: `pop` returns the value originally at position `i` together with the
remainder of length `s - 1` holding every other element in original relative
order, and reinserting the popped value at `i` reconstructs the input. -/
theorem C2_pop_correct (v : List α) {i : Nat} (h : i < v.length) :
    (pop v i).1 = v[i] ∧
    (pop v i).2.length = v.length - 1 ∧
    List.insertIdx i (pop v i).1 (pop v i).2 = v := by
  have h1 : (pop v i).1 = v[i] := get_eq_getElem v h
  have h2 := pop_snd_eq v h
  have htl : (v.take i).length = i := by
    simp only [List.length_take]
    omega
  refine ⟨h1, ?_, ?_⟩
  · rw [h2]
    simp only [List.length_append, List.length_drop, htl]
    omega
  · rw [h1, h2]
    calc List.insertIdx i v[i] (v.take i ++ v.drop (i + 1))
        = List.insertIdx (v.take i).length v[i] (v.take i ++ v.drop (i + 1)) := by
          rw [htl]
      _ = v.take i ++ v[i] :: v.drop (i + 1) := insertIdx_append_length _ _ _
      _ = v.take i ++ v.drop i := by rw [List.getElem_cons_drop]
      _ = v := List.take_append_drop i v

/-- C2 witness at the triple `[10, 20, 30]`, position 1. -/
theorem C2_pop_correct_witness :
    (pop [10, 20, 30] 1).1 = [10, 20, 30][1] ∧
    (pop [10, 20, 30] 1).2.length = [10, 20, 30].length - 1 ∧
    List.insertIdx 1 (pop [10, 20, 30] 1).1 (pop [10, 20, 30] 1).2 = [10, 20, 30] :=
  C2_pop_correct [10, 20, 30] (by decide)

/-- C3: `split_at` returns the prefix of positions `0..i` inclusive and the
suffix of positions `i+1..s-1`, of lengths `i + 1` and `s - i - 1`, whose
concatenation is the input. -/
theorem C3_split_at_correct (v : List α) {i : Nat} (h : i < v.length) :
    (split_at v i).1.length = i + 1 ∧
    (split_at v i).2.length = v.length - i - 1 ∧
    (split_at v i).1 ++ (split_at v i).2 = v := by
  have hl : (split_at v i).1 = v.take (i + 1) := by
    show (split_left_indices i).map (get v) = _
    rw [split_left_indices, map_get_range v (i + 1) h]
  have hr : (split_at v i).2 = v.drop (i + 1) := by
    show (split_right_indices v.length i).map (get v) = _
    rw [split_right_indices, map_get_range' v (v.length - (i + 1)) (i + 1) (by omega)]
    rw [List.take_of_length_le]
    simp
  refine ⟨?_, ?_, ?_⟩
  · rw [hl]
    simp only [List.length_take]
    omega
  · rw [hr]
    simp only [List.length_drop]
    omega
  · rw [hl, hr, List.take_append_drop]

/-- C3 witness at the triple `[10, 20, 30]`, position 1. -/
theorem C3_split_at_correct_witness :
    (split_at [10, 20, 30] 1).1.length = 1 + 1 ∧
    (split_at [10, 20, 30] 1).2.length = [10, 20, 30].length - 1 - 1 ∧
    (split_at [10, 20, 30] 1).1 ++ (split_at [10, 20, 30] 1).2 = [10, 20, 30] :=
  C3_split_at_correct [10, 20, 30] (by decide)

/-- C4: assigning `x` through `get_mut` and reading back with `get` at the
same position yields `x`; the arity and every other position are unchanged. -/
theorem C4_write_then_read (v : List α) (x : α) {i : Nat} (h : i < v.length) :
    get (get_mut_write v i x) i = x ∧
    (get_mut_write v i x).length = v.length ∧
    ∀ j, j ≠ i → get (get_mut_write v i x) j = get v j := by
  refine ⟨?_, by simp [get_mut_write], ?_⟩
  · have hi : i < (v.set i x).length := by simpa using h
    rw [get_mut_write, get_eq_getElem _ hi, List.getElem_set_self hi]
  · intro j hj
    by_cases hjl : j < v.length
    · have hj2 : j < (v.set i x).length := by simpa using hjl
      rw [get_mut_write, get_eq_getElem _ hj2, get_eq_getElem _ hjl,
        List.getElem_set_ne (fun hh => hj hh.symm)]
    · have hge : v.length ≤ j := Nat.le_of_not_lt hjl
      rw [get_mut_write, get, get, List.getD_eq_default _ _ (by simpa using hge),
        List.getD_eq_default _ _ hge]

/-- C4 witness at the triple `[10, 20, 30]`, position 1, new value 99. -/
theorem C4_write_then_read_witness :
    get (get_mut_write [10, 20, 30] 1 99) 1 = 99 ∧
    (get_mut_write [10, 20, 30] 1 99).length = [10, 20, 30].length ∧
    ∀ j, j ≠ 1 → get (get_mut_write [10, 20, 30] 1 99) j = get [10, 20, 30] j :=
  C4_write_then_read [10, 20, 30] 99 (by decide)

/-- C5: `map` with the identity closure leaves the tuple unchanged. -/
theorem C5_map_identity (v : List α) {i : Nat} (h : i < v.length) :
    map v i (fun x => x) = v := by
  show (v.set i default).set i (get v i) = v
  rw [List.set_set, get_eq_getElem v h, set_getElem_self_eq v h]

/-- C5 witness at the triple `[10, 20, 30]`, position 2. -/
theorem C5_map_identity_witness :
    map [10, 20, 30] 2 (fun x => x) = [10, 20, 30] :=
  C5_map_identity [10, 20, 30] (by decide)

/-- C9: after `map` with `f`, position `i` holds exactly `f` of the original
value — the `Default` placeholder written by `mem::take` never survives — and
every other position is unchanged: the result is exactly the input with
position `i` overwritten by `f` of its old value. -/
theorem C9_map_frame (v : List α) (f : α → α) {i : Nat} (h : i < v.length) :
    map v i f = v.set i (f v[i]) ∧
    get (map v i f) i = f (get v i) ∧
    ∀ j, j ≠ i → get (map v i f) j = get v j := by
  have heq : map v i f = v.set i (f v[i]) := by
    show (v.set i default).set i (f (get v i)) = _
    rw [List.set_set, get_eq_getElem v h]
  refine ⟨heq, ?_, ?_⟩
  · have hi : i < (v.set i (f v[i])).length := by simpa using h
    rw [heq, get_eq_getElem _ hi, List.getElem_set_self hi, get_eq_getElem v h]
  · intro j hj
    by_cases hjl : j < v.length
    · have hj2 : j < (v.set i (f v[i])).length := by simpa using hjl
      rw [heq, get_eq_getElem _ hj2, get_eq_getElem _ hjl,
        List.getElem_set_ne (fun hh => hj hh.symm)]
    · have hge : v.length ≤ j := Nat.le_of_not_lt hjl
      rw [heq, get, get, List.getD_eq_default _ _ (by simpa using hge),
        List.getD_eq_default _ _ hge]

/-- C9 witness at the triple `[10, 20, 30]`, position 0, doubling. -/
theorem C9_map_frame_witness :
    map [10, 20, 30] 0 (fun x => x * 2) = [10, 20, 30].set 0 (([10, 20, 30][0]) * 2) ∧
    get (map [10, 20, 30] 0 (fun x => x * 2)) 0 = (get [10, 20, 30] 0) * 2 ∧
    ∀ j, j ≠ 0 → get (map [10, 20, 30] 0 (fun x => x * 2)) j = get [10, 20, 30] j :=
  C9_map_frame [10, 20, 30] (fun x => x * 2) (by decide)

end TypedTupleGen

namespace TypedTupleGen

variable {α : Type} [Inhabited α]

/-- C6: the marker generator yields exactly `N` pairwise-distinct marker
identities, one per global index `0..N-1` independent of any arity, each
declared as a field-less struct. -/
theorem C6_markers (N : Nat) :
    (index_idents N).length = N ∧
    (index_idents N).Nodup ∧
    (∀ i, i ∈ index_idents N ↔ i < N) ∧
    marker_decls N = (index_idents N).map (fun i => (i, ([] : List String))) := by
  exact ⟨by simp [index_idents], List.nodup_range N,
    fun i => by simp [index_idents], rfl⟩

/-- C6 witness at `N = 4`. -/
theorem C6_markers_witness :
    (index_idents 4).length = 4 ∧
    (index_idents 4).Nodup ∧
    (∀ i, i ∈ index_idents 4 ↔ i < 4) ∧
    marker_decls 4 = (index_idents 4).map (fun i => (i, ([] : List String))) :=
  C6_markers 4

/-- C7: in the concrete example `("hello", 'b', 7)` of arity 3, the number
type matches exactly position 2 and reading there returns the third field;
writing `'z'` through position 1 changes only that field; `pop` at position 0
returns the text with the remainder `('b', 7)`; `split_at` at position 1
returns `(("hello", 'b'), (7,))`. -/
theorem C7_concrete_example :
    matching_positions (concrete_triple.map elemType) "usize" = [2] ∧
    get concrete_triple 2 = Elem.num 7 ∧
    get_mut_write concrete_triple 1 (Elem.ch 'z') =
      [Elem.text "hello", Elem.ch 'z', Elem.num 7] ∧
    pop concrete_triple 0 = (Elem.text "hello", [Elem.ch 'b', Elem.num 7]) ∧
    split_at concrete_triple 1 = ([Elem.text "hello", Elem.ch 'b'], [Elem.num 7]) := by
  refine ⟨by decide, rfl, rfl, rfl, rfl⟩

end TypedTupleGen

namespace TypedTupleGen

variable {α : Type} [Inhabited α]

/-- C8: for a valid `(s, i)` every field index any of the five generated
bodies projects is below the arity `s` — `get`/`get_mut`/`map` touch only
`i`, `pop` only `i` and the remaining indices, `split_at` only the two index
ranges — so no generated body can access a missing field; and for `i ≥ s` no
impl is emitted at all, whatever the configured maximum. -/
theorem C8_total_no_invalid_access (N s i : Nat) (h : i < s) :
    i < s ∧
    (∀ j ∈ remaining_indices s i, j < s) ∧
    (∀ j ∈ split_left_indices i, j < s) ∧
    (∀ j ∈ split_right_indices s i, j < s) ∧
    (∀ k, s ≤ k → (s, k) ∉ emitted_impls N) := by
  refine ⟨h, ?_, ?_, ?_, ?_⟩
  · intro j hj
    rw [remaining_indices, List.mem_filter] at hj
    have := hj.1
    simp only [List.mem_range] at this
    exact this
  · intro j hj
    rw [split_left_indices, List.mem_range] at hj
    omega
  · intro j hj
    rw [split_right_indices, List.mem_range'_1] at hj
    omega
  · intro k hk hmem
    rw [mem_emitted_impls] at hmem
    omega

/-- C8 witness at `N = 3`, arity 2, position 1. -/
theorem C8_total_no_invalid_access_witness :
    1 < 2 ∧
    (∀ j ∈ remaining_indices 2 1, j < 2) ∧
    (∀ j ∈ split_left_indices 1, j < 2) ∧
    (∀ j ∈ split_right_indices 2 1, j < 2) ∧
    (∀ k, 2 ≤ k → (2, k) ∉ emitted_impls 3) :=
  C8_total_no_invalid_access 3 2 1 (by decide)

/-- The macro_rules recursion keeps exactly the first `|generics|` entries of
the index list when enough indices are available. -/
theorem impl_typed_tuple_rec_take :
    ∀ (gs is : List Nat), gs.length ≤ is.length →
      impl_typed_tuple_rec is gs = is.take gs.length := by
  intro gs
  induction gs with
  | nil =>
    intro is h
    cases is <;> simp [impl_typed_tuple_rec]
  | cons g gs ih =>
    intro is h
    cases is with
    | nil => simp at h
    | cons i is2 =>
      simp only [impl_typed_tuple_rec, List.length_cons, List.take_succ_cons]
      rw [ih is2 (by simpa using h)]

/-- For each invoked arity, the fallback macro emits impls exactly at the
indices `0..s`. -/
theorem fallback_inner {s : Nat} (h : s ≤ 12) :
    impl_typed_tuple_rec fallback_idx_list (type_params s) = List.range s := by
  have hidx : fallback_idx_list = List.range 12 := by decide
  have hlen : (type_params s).length ≤ fallback_idx_list.length := by
    simp only [type_params, List.length_range, fallback_idx_list, List.length_cons,
      List.length_nil]
    omega
  rw [impl_typed_tuple_rec_take (type_params s) fallback_idx_list hlen]
  rw [hidx, List.take_range]
  simp only [type_params, List.length_range]
  have hmin : s ⊓ 12 = s := by omega
  rw [hmin]

/-- The fallback impl list in closed form. -/
theorem fallback_impls_eq :
    fallback_impls = fallback_arities.flatMap (fun s =>
      (List.range s).map (fun i => (s, i))) := by
  rfl

/-- Membership in the fallback impl list. -/
theorem mem_fallback_impls {s i : Nat} :
    (s, i) ∈ fallback_impls ↔ 2 ≤ s ∧ s ≤ 12 ∧ i < s := by
  rw [fallback_impls_eq]
  simp only [List.mem_flatMap, List.mem_map, List.mem_range, Prod.mk.injEq]
  constructor
  · rintro ⟨a, ha, b, hb, rfl, rfl⟩
    simp only [fallback_arities, List.mem_cons, List.not_mem_nil, or_false] at ha
    rcases ha with h | h | h | h | h | h | h | h | h | h | h <;> omega
  · rintro ⟨h2, h12, hi⟩
    refine ⟨s, ?_, i, hi, rfl, rfl⟩
    simp only [fallback_arities, List.mem_cons, List.not_mem_nil]
    omega

/-- C10: the fallback variant provides only `get`, `get_mut` and `map` (no
`pop`, no `split_at`); it covers exactly the arities 2 through 12 (never
arity 1, which only the generated core reaches), every pair it covers is
also covered by the generated core at maximum 12, and its three operations
coincide with the generated ones. -/
theorem C10_fallback_refines_generated :
    "pop" ∉ fallback_ops ∧
    "split_at" ∉ fallback_ops ∧
    fallback_ops ⊆ generated_ops ∧
    (∀ s i, (s, i) ∈ fallback_impls ↔ 2 ≤ s ∧ s ≤ 12 ∧ i < s) ∧
    (∀ i, (1, i) ∉ fallback_impls) ∧
    (∀ p ∈ fallback_impls, p ∈ emitted_impls 12) ∧
    (∀ (v : List α) i, fallback_get v i = get v i) ∧
    (∀ (v : List α) i x, fallback_get_mut_write v i x = get_mut_write v i x) ∧
    (∀ (v : List α) i f, fallback_map v i f = map v i f) := by
  refine ⟨by decide, by decide, by decide, fun s i => mem_fallback_impls, ?_, ?_,
    fun v i => rfl, fun v i x => rfl, fun v i f => rfl⟩
  · intro i hmem
    rw [mem_fallback_impls] at hmem
    omega
  · rintro ⟨s, i⟩ hp
    rw [mem_fallback_impls] at hp
    rw [mem_emitted_impls]
    omega

/-- C10 witness at element type `Nat`. -/
theorem C10_fallback_refines_generated_witness :
    "pop" ∉ fallback_ops ∧
    "split_at" ∉ fallback_ops ∧
    fallback_ops ⊆ generated_ops ∧
    (∀ s i, (s, i) ∈ fallback_impls ↔ 2 ≤ s ∧ s ≤ 12 ∧ i < s) ∧
    (∀ i, (1, i) ∉ fallback_impls) ∧
    (∀ p ∈ fallback_impls, p ∈ emitted_impls 12) ∧
    (∀ (v : List Nat) i, fallback_get v i = get v i) ∧
    (∀ (v : List Nat) i x, fallback_get_mut_write v i x = get_mut_write v i x) ∧
    (∀ (v : List Nat) i f, fallback_map v i f = map v i f) :=
  C10_fallback_refines_generated

end TypedTupleGen
